import Mathlib

/-!
# Verification of the Record Consolidation & Classification Engine

Shallow embedding of the core of `DocumentScraperAndProcessor`:

* `src/global_updater.py` — `load_json`, `merge_records`, `update_global_file`.
  Python `dict`s are modelled as insertion-ordered association lists with
  unique keys (`dlookup` / `dinsert` / `derase` / `dupdate` mirror
  `d[k]` / `d[k] = v` / `d.pop(k)` / `d.update(e)`).
* `src/deepseek_cholera_request.py` — `fuzzy_in_text`, `check_cholera_keywords`
  and the `difflib.SequenceMatcher.ratio` primitive they call (no junk
  heuristics apply: the matcher is constructed with `None` junk and all
  compared strings are far below the autojunk limit).
* `src/cholera_processor.py` — `process_cholera_deaths`, with the filesystem
  (a source directory and a destination directory of filenames) passed in
  explicitly as lists of names.

Python strings are modelled as Lean `String` (a list of code points in this
toolchain); `str.lower` is modelled per-code-point via `Char.toLower`, which
agrees with Python on the ASCII data handled by this program.
-/

/-! ## Python dictionaries as insertion-ordered association lists -/

/-- `d[k]` lookup: the value at the first occurrence of key `k`. -/
def dlookup {β : Type} : List (String × β) → String → Option β
  | [], _ => none
  | (k', v) :: rest, k => if k' = k then some v else dlookup rest k

/-- `d[k] = v`: replace the value at `k` in place, or append `(k, v)`
(Python dicts keep the position of an existing key and append new keys). -/
def dinsert {β : Type} : List (String × β) → String → β → List (String × β)
  | [], k, v => [(k, v)]
  | (k', v') :: rest, k, v =>
    if k' = k then (k, v) :: rest else (k', v') :: dinsert rest k v

/-- `d.pop(k)` (the removal part): drop every entry with key `k`. -/
def derase {β : Type} : List (String × β) → String → List (String × β)
  | [], _ => []
  | (k', v') :: rest, k =>
    if k' = k then derase rest k else (k', v') :: derase rest k

/-- The keys of a dict, in order. -/
def dkeys {β : Type} (d : List (String × β)) : List String := d.map Prod.fst

/-- `d.update(e)`: apply every entry of `e`, left to right. -/
def dupdate {β : Type} (d e : List (String × β)) : List (String × β) :=
  e.foldl (fun acc kv => dinsert acc kv.1 kv.2) d

/-- A well-formed dict representation: each key occurs at most once
(every genuine Python dict satisfies this). -/
def DictWF {β : Type} (d : List (String × β)) : Prop := (dkeys d).Nodup

/-- A record of the store: one Python dict with string values. -/
abbrev Record := List (String × String)

/-- The in-memory store: a Python dict from filename to record. -/
abbrev Store := List (String × Record)

/-- Well-formed store: unique ids and each stored record well-formed. -/
def StoreWF (s : Store) : Prop := DictWF s ∧ ∀ p ∈ s, DictWF p.2

instance {β : Type} (d : List (String × β)) : Decidable (DictWF d) :=
  inferInstanceAs (Decidable (List.Nodup (dkeys d)))

instance (s : Store) : Decidable (StoreWF s) :=
  inferInstanceAs (Decidable (DictWF s ∧ ∀ p ∈ s, DictWF p.2))

/-! ## `global_updater.py` -/

/-- The record `merge_records` seeds for a first-seen id
("Initialize known keys with empty strings for consistency"). -/
def defaultRecord (fname : String) : Record :=
  [("filename", fname), ("person_name", ""), ("certificate_url", ""),
   ("ocr_text", ""), ("death_date", ""), ("death_location", ""),
   ("cause_of_death", ""), ("cholera_death", "")]

/-- `if rename_key and rename_key in record: record["filename"] = record.pop(rename_key)`
from `merge_records`.  A `None` rename key (and the falsy empty string)
leaves the record unchanged. -/
def applyRename (renameKey : Option String) (record : Record) : Record :=
  match renameKey with
  | none => record
  | some rk =>
    if rk = "" then record
    else
      match dlookup record rk with
      | none => record
      | some v => dinsert (derase record rk) "filename" v

/-- The body of the `for record in new` loop of `merge_records`: rename,
resolve the id, skip falsy ids, update an existing record in place or seed
a fresh one and overwrite it with the incoming fields. -/
def mergeOne (renameKey : Option String) (existing : Store) (record : Record) : Store :=
  let r := applyRename renameKey record
  match dlookup r "filename" with
  | none => existing
  | some fname =>
    if fname = "" then existing
    else
      match dlookup existing fname with
      | some cur => dinsert existing fname (dupdate cur r)
      | none => dinsert existing fname (dupdate (defaultRecord fname) r)

/-- `merge_records(existing, new, rename_key=...)` from `global_updater.py`. -/
def merge_records (existing : Store) (new : List Record)
    (renameKey : Option String := none) : Store :=
  new.foldl (mergeOne renameKey) existing

/-- The id under which `merge_records` files a record: `some f` when the
(renamed) record carries a non-falsy `filename`, `none` when the record is
silently skipped. -/
def recFname (renameKey : Option String) (record : Record) : Option String :=
  match dlookup (applyRename renameKey record) "filename" with
  | none => none
  | some f => if f = "" then none else some f

/-- The (renamed) records of a batch that `merge_records` files under id `f`,
in merge order. -/
def batchFor (renameKey : Option String) (new : List Record) (f : String) :
    List Record :=
  (new.filter (fun r => recFname renameKey r = some f)).map (applyRename renameKey)

/-- `{entry.get("filename"): entry for entry in global_data if entry.get("filename")}`
from `update_global_file`: the persisted record list as an id-keyed dict
(first-seen key order, later duplicate wins). -/
def toStore (data : List Record) : Store :=
  data.foldl (fun d e =>
    match dlookup e "filename" with
    | none => d
    | some f => if f = "" then d else dinsert d f e) []

/-- Outcome of opening and JSON-parsing a store file: the file may be
absent, present but not well-formed JSON, or parse to a record list. -/
inductive FileRead where
  | missing
  | corrupt
  | ok (data : List Record)

/-- `load_json` from `global_updater.py`: a missing file and a
`json.JSONDecodeError` both yield the empty collection. -/
def load_json : FileRead → List Record
  | FileRead.missing => []
  | FileRead.corrupt => []
  | FileRead.ok data => data

/-- `update_global_file`, between loading the global file and saving it:
build the id-keyed dict, merge the source batch, flatten back to the
record list that is persisted. -/
def update_global_file (global_data source_data : List Record)
    (renameKey : Option String := none) : List Record :=
  (merge_records (toStore global_data) source_data renameKey).map Prod.snd

/-- A sequence of `merge_records` calls, each with its own batch and
optional rename key. -/
def applyBatches (s : Store) : List (List Record × Option String) → Store
  | [] => s
  | (batch, rk) :: rest => applyBatches (merge_records s batch rk) rest

/-! ### Derived notions the theorems quantify over -/

/-- The value the last record of `bs` that carries key `k` assigns to it. -/
def chainLookup (bs : List Record) (k : String) : Option String :=
  bs.foldr (fun r acc =>
    match acc with
    | some v => some v
    | none => dlookup r k) none

/-- The seven canonical fields plus the id key `filename`. -/
def canonicalKeys : List String :=
  ["filename", "person_name", "certificate_url", "ocr_text", "death_date",
   "death_location", "cause_of_death", "cholera_death"]

/-- Every record of the store carries each canonical field as a present key
(its value may be the empty string). -/
def HasSchema (s : Store) : Prop :=
  ∀ p ∈ s, ∀ k ∈ canonicalKeys, (dlookup p.2 k).isSome

/-- Every stored record's `filename` field agrees with the id it is keyed
under. -/
def IdConsistent (s : Store) : Prop :=
  ∀ f rec, dlookup s f = some rec → dlookup rec "filename" = some f

/-! ## `deepseek_cholera_request.py` — the fuzzy classifier -/

/-- Python `str.lower`, code point by code point (agrees with Python on the
ASCII data this program handles). -/
def pyLower (s : String) : String := ⟨s.data.map Char.toLower⟩

/-- Length of the longest common suffix of two sequences. -/
def commonSuffixLen (x y : List Char) : Nat :=
  ((x.reverse.zip y.reverse).takeWhile (fun p => p.1 = p.2)).length

/-- `SequenceMatcher.find_longest_match` over the full slices, with empty
junk sets (the matcher is built with junk `None`, and autojunk never fires
on strings this short): scan end positions `(i, j)` in ascending order and
keep the first longest diagonal run; `(start in a, start in b, length)`. -/
def findLongestMatch (a b : List Char) : Nat × Nat × Nat :=
  (List.range a.length).foldl (fun best i =>
    (List.range b.length).foldl (fun best j =>
      let k := commonSuffixLen (a.take (i + 1)) (b.take (j + 1))
      if best.2.2 < k then (i + 1 - k, j + 1 - k, k) else best) best)
    (0, 0, 0)

theorem foldl_preserve {α β : Type} (P : β → Prop) (f : β → α → β) :
    ∀ (l : List α) (b : β), P b → (∀ b' a, a ∈ l → P b' → P (f b' a)) →
      P (l.foldl f b) := by
  intro l
  induction l with
  | nil => intro b hb _; exact hb
  | cons a rest ih =>
    intro b hb hstep
    exact ih (f b a) (hstep b a (by simp) hb)
      (fun b' a' ha' hb' => hstep b' a' (List.mem_cons_of_mem _ ha') hb')

theorem length_takeWhile_le {α : Type} (p : α → Bool) (l : List α) :
    (l.takeWhile p).length ≤ l.length := by
  induction l with
  | nil => simp [List.takeWhile]
  | cons a rest ih =>
    by_cases h : p a
    · simpa [List.takeWhile, h] using ih
    · simp [List.takeWhile, h]

theorem commonSuffixLen_le_left (x y : List Char) :
    commonSuffixLen x y ≤ x.length := by
  unfold commonSuffixLen
  calc ((x.reverse.zip y.reverse).takeWhile _).length
      ≤ (x.reverse.zip y.reverse).length := length_takeWhile_le _ _
    _ ≤ x.length := by
        rw [List.length_zip]
        simp

theorem commonSuffixLen_le_right (x y : List Char) :
    commonSuffixLen x y ≤ y.length := by
  unfold commonSuffixLen
  calc ((x.reverse.zip y.reverse).takeWhile _).length
      ≤ (x.reverse.zip y.reverse).length := length_takeWhile_le _ _
    _ ≤ y.length := by
        rw [List.length_zip]
        simp

/-- The block reported by `findLongestMatch` lies inside both sequences. -/
theorem flm_bounds (a b : List Char) :
    (findLongestMatch a b).2.2 = 0
    ∨ (0 < (findLongestMatch a b).2.2
        ∧ (findLongestMatch a b).1 + (findLongestMatch a b).2.2 ≤ a.length
        ∧ (findLongestMatch a b).2.1 + (findLongestMatch a b).2.2 ≤ b.length) := by
  unfold findLongestMatch
  refine foldl_preserve (fun m : Nat × Nat × Nat => m.2.2 = 0 ∨
    (0 < m.2.2 ∧ m.1 + m.2.2 ≤ a.length ∧ m.2.1 + m.2.2 ≤ b.length)) _ _ _
    (Or.inl rfl) ?_
  intro best i hi hbest
  refine foldl_preserve (fun m : Nat × Nat × Nat => m.2.2 = 0 ∨
    (0 < m.2.2 ∧ m.1 + m.2.2 ≤ a.length ∧ m.2.1 + m.2.2 ≤ b.length)) _ _ _ hbest ?_
  intro best' j hj hbest'
  set k := commonSuffixLen (a.take (i + 1)) (b.take (j + 1)) with hk
  by_cases hlt : best'.2.2 < k
  · rw [if_pos hlt]
    right
    have hkpos : 0 < k := Nat.lt_of_le_of_lt (Nat.zero_le _) hlt
    have hki : k ≤ i + 1 := by
      calc k ≤ (a.take (i + 1)).length := commonSuffixLen_le_left _ _
        _ ≤ i + 1 := by rw [List.length_take]; exact Nat.min_le_left _ _
    have hkj : k ≤ j + 1 := by
      calc k ≤ (b.take (j + 1)).length := commonSuffixLen_le_right _ _
        _ ≤ j + 1 := by rw [List.length_take]; exact Nat.min_le_left _ _
    have hia : i + 1 ≤ a.length := List.mem_range.mp hi
    have hjb : j + 1 ≤ b.length := List.mem_range.mp hj
    refine ⟨hkpos, ?_, ?_⟩
    · rw [Nat.sub_add_cancel hki]; exact hia
    · rw [Nat.sub_add_cancel hkj]; exact hjb
  · rw [if_neg hlt]
    exact hbest'

/-- The total number of matched elements over `get_matching_blocks`'s
recursive decomposition: take the longest block, recurse on what lies
before it and after it. -/
def matchTotal (a b : List Char) : Nat :=
  match hm : findLongestMatch a b with
  | (i, j, k) =>
    if hk : k = 0 then 0
    else
      k + matchTotal (a.take i) (b.take j)
        + matchTotal (a.drop (i + k)) (b.drop (j + k))
termination_by a.length
decreasing_by
  · rcases flm_bounds a b with h | ⟨hpos, ha, _⟩
    · rw [hm] at h; exact absurd h hk
    · rw [hm] at hpos ha
      simp only at hpos ha
      have hia : i < a.length :=
        Nat.lt_of_lt_of_le (Nat.lt_add_of_pos_right hpos) ha
      rw [List.length_take]
      exact Nat.lt_of_le_of_lt (Nat.min_le_left _ _) hia
  · rcases flm_bounds a b with h | ⟨hpos, ha, _⟩
    · rw [hm] at h; exact absurd h hk
    · rw [hm] at hpos ha
      simp only at hpos ha
      have hab : 0 < a.length :=
        Nat.lt_of_lt_of_le (Nat.lt_of_lt_of_le hpos (Nat.le_add_left _ _)) ha
      rw [List.length_drop]
      exact Nat.sub_lt hab (Nat.lt_of_lt_of_le hpos (Nat.le_add_left _ _))

/-- `SequenceMatcher(None, a, b).ratio()`: `2.0 * M / T`, and `1.0` when
both sequences are empty. -/
def seqRatio (a b : List Char) : ℚ :=
  if a.length + b.length = 0 then 1
  else (2 * matchTotal a b : ℚ) / (a.length + b.length)

/-- Python regex `\w` on the ASCII range: letters, digits, underscore. -/
def isWordChar (c : Char) : Bool := c.isAlphanum || c = '_'

/-- `re.split(r'\W+', text)`: the fields between maximal runs of non-word
characters, including the empty fields produced at the two ends. -/
def splitW : List Char → List (List Char)
  | [] => [[]]
  | c :: rest =>
    if isWordChar c then
      match splitW rest with
      | [] => [[c]]
      | w :: ws => (c :: w) :: ws
    else
      match rest with
      | [] => [[], []]
      | d :: _ => if isWordChar d then [] :: splitW rest else splitW rest

/-- `fuzzy_in_text(keyword, text, threshold=0.8)`: exact substring first,
then any `\W+`-token of the text whose similarity ratio to the keyword
reaches the threshold. -/
def fuzzy_in_text (keyword text : String) (threshold : ℚ := 0.8) : Bool :=
  if keyword.data <:+: text.data then true
  else (splitW text.data).any (fun word => threshold ≤ seqRatio word keyword.data)

/-- The negative keyword list of `check_cholera_keywords`. -/
def negative_keywords : List String :=
  ["hanging", "convulsions", "head injury", "typhoid fever", "diptheria",
   "epilepsy", "old age"]

/-- The positive keyword list of `check_cholera_keywords`. -/
def positive_keywords : List String :=
  ["cholera", "asiatic cholera", "cholera morbus", "cholera infantum",
   "chronic diarrhea", "diarrhoea", "diarrhea", "vomiting", "exhaustion"]

/-- `check_cholera_keywords(cause)` from `deepseek_cholera_request.py`. -/
def check_cholera_keywords (cause : String) : String :=
  if cause = "" then "unknown"
  else
    let cause_lower := pyLower cause
    if negative_keywords.any (fun neg => fuzzy_in_text neg cause_lower 0.8) then "no"
    else if positive_keywords.any (fun pos => fuzzy_in_text pos cause_lower 0.8) then "yes"
    else "unknown"

/-! ## `cholera_processor.py` — the filtered-set reconciler -/

/-- `file.lower().endswith(".pdf")` from the prune loop. -/
def isPdfName (file : String) : Bool := ".pdf".data.isSuffixOf (pyLower file).data

/-- `file[:-4]`: the artifact name with its last four code points removed. -/
def stripExt4 (file : String) : String := ⟨file.data.take (file.data.length - 4)⟩

/-- `record.get("cholera_death", "").lower() == "yes"`: the classification
predicate of `process_cholera_deaths`. -/
def isCholeraYes (r : Record) : Bool := pyLower ((dlookup r "cholera_death").getD "") = "yes"

/-- `record.get("filename", "")`. -/
def recordName (r : Record) : String := (dlookup r "filename").getD ""

/-- The PDF artifact name of a record: `record.get("filename", "") + ".pdf"`. -/
def pdfOf (r : Record) : String := recordName r ++ ".pdf"

/-- `valid_filenames` of `process_cholera_deaths`, as the list of base names
of the predicate-passing records. -/
def validNames (complete_data : List Record) : List String :=
  (complete_data.filter isCholeraYes).map recordName

/-- The copy loop of `process_cholera_deaths`: for each predicate-passing
record, skip when the source PDF is absent (reported, non-fatal) or the
destination already holds the artifact, otherwise copy it over. -/
def copyLoop (source : List String) : List Record → List String → List String
  | [], dest => dest
  | r :: rest, dest =>
    if pdfOf r ∈ source then
      if pdfOf r ∈ dest then copyLoop source rest dest
      else copyLoop source rest (dest ++ [pdfOf r])
    else copyLoop source rest dest

/-- `process_cholera_deaths` on a readable store, with the filesystem made
explicit: `source` is the contents of `./death_certificates`, `dest` the
starting contents of `./cholera_positive`; the result is the final
destination contents (prune the PDFs whose base name no longer passes the
predicate, then copy the missing artifacts of passing records). -/
def process_cholera_deaths (complete_data : List Record)
    (source dest : List String) : List String :=
  let cholera_records := complete_data.filter isCholeraYes
  let valid := cholera_records.map recordName
  let dest1 := dest.filter (fun file => !(isPdfName file) || decide (stripExt4 file ∈ valid))
  copyLoop source cholera_records dest1

/-- The destination directory holds an artifact for `id`: some file that the
prune loop would treat as a PDF and whose base name is `id`. -/
def HasArtifactId (files : List String) (id : String) : Prop :=
  ∃ f ∈ files, isPdfName f = true ∧ stripExt4 f = id

/-- A one-record store whose only record passes the predicate. -/
def cholCexStore : List Record := [[("filename", "a"), ("cholera_death", "yes")]]

/-! ## Theorems -/

/-! ### Dict lemmas -/

theorem dkeys_nil {β : Type} : dkeys ([] : List (String × β)) = [] := rfl

theorem dkeys_cons {β : Type} (p : String × β) (rest : List (String × β)) :
    dkeys (p :: rest) = p.1 :: dkeys rest := rfl

theorem dlookup_dinsert {β : Type} (d : List (String × β)) (k k' : String) (v : β) :
    dlookup (dinsert d k v) k' = if k' = k then some v else dlookup d k' := by
  induction d with
  | nil =>
    by_cases h : k' = k
    · simp [dinsert, dlookup, h]
    · simp [dinsert, dlookup, h, Ne.symm h]
  | cons p rest ih =>
    obtain ⟨k0, v0⟩ := p
    by_cases h0 : k0 = k
    · subst h0
      by_cases h1 : k' = k0
      · simp [dinsert, dlookup, h1]
      · simp [dinsert, dlookup, h1, Ne.symm h1]
    · by_cases h1 : k0 = k'
      · subst h1
        simp [dinsert, dlookup, h0, Ne.symm h0]
      · simp [dinsert, dlookup, h0, h1, ih]

theorem dlookup_eq_none_iff {β : Type} (d : List (String × β)) (k : String) :
    dlookup d k = none ↔ k ∉ dkeys d := by
  induction d with
  | nil => simp [dlookup, dkeys_nil]
  | cons p rest ih =>
    obtain ⟨k0, v0⟩ := p
    by_cases h : k0 = k
    · subst h; simp [dlookup, dkeys_cons]
    · simp [dlookup, dkeys_cons, h, Ne.symm h, ih]

theorem dlookup_isSome_iff {β : Type} (d : List (String × β)) (k : String) :
    (dlookup d k).isSome ↔ k ∈ dkeys d := by
  induction d with
  | nil => simp [dlookup, dkeys_nil]
  | cons p rest ih =>
    obtain ⟨k0, v0⟩ := p
    by_cases h : k0 = k
    · subst h; simp [dlookup, dkeys_cons]
    · simp [dlookup, dkeys_cons, h, Ne.symm h, ih]

theorem dlookup_mem {β : Type} {d : List (String × β)} {k : String} {v : β}
    (h : dlookup d k = some v) : (k, v) ∈ d := by
  induction d with
  | nil => simp [dlookup] at h
  | cons p rest ih =>
    obtain ⟨k0, v0⟩ := p
    by_cases h0 : k0 = k
    · subst h0
      simp [dlookup] at h
      simp [h]
    · simp [dlookup, h0] at h
      exact List.mem_cons_of_mem _ (ih h)

theorem dkeys_dinsert_of_mem {β : Type} {d : List (String × β)} {k : String}
    (v : β) (h : k ∈ dkeys d) : dkeys (dinsert d k v) = dkeys d := by
  induction d with
  | nil => simp [dkeys_nil] at h
  | cons p rest ih =>
    obtain ⟨k0, v0⟩ := p
    by_cases h0 : k0 = k
    · subst h0; simp [dinsert, dkeys_cons]
    · simp [dkeys_cons, Ne.symm h0] at h
      simp [dinsert, dkeys_cons, h0, ih h]

theorem dkeys_dinsert_of_not_mem {β : Type} {d : List (String × β)} {k : String}
    (v : β) (h : k ∉ dkeys d) : dkeys (dinsert d k v) = dkeys d ++ [k] := by
  induction d with
  | nil => simp [dinsert, dkeys_nil, dkeys_cons]
  | cons p rest ih =>
    obtain ⟨k0, v0⟩ := p
    simp [dkeys_cons] at h
    push_neg at h
    simp [dinsert, dkeys_cons, Ne.symm h.1, ih h.2]

theorem mem_dkeys_dinsert {β : Type} (d : List (String × β)) (k : String) (v : β) :
    k ∈ dkeys (dinsert d k v) := by
  by_cases h : k ∈ dkeys d
  · rw [dkeys_dinsert_of_mem v h]; exact h
  · rw [dkeys_dinsert_of_not_mem v h]; simp

theorem dkeys_dinsert_subset {β : Type} (d : List (String × β)) (k : String) (v : β) :
    dkeys d ⊆ dkeys (dinsert d k v) := by
  by_cases h : k ∈ dkeys d
  · rw [dkeys_dinsert_of_mem v h]
    exact fun x hx => hx
  · rw [dkeys_dinsert_of_not_mem v h]
    exact List.subset_append_left _ _

theorem dictWF_dinsert {β : Type} {d : List (String × β)} (k : String) (v : β)
    (h : DictWF d) : DictWF (dinsert d k v) := by
  by_cases hm : k ∈ dkeys d
  · unfold DictWF
    rw [dkeys_dinsert_of_mem v hm]
    exact h
  · unfold DictWF
    rw [dkeys_dinsert_of_not_mem v hm]
    simpa [List.nodup_append] using ⟨h, hm⟩

theorem dictWF_cons_iff {β : Type} (p : String × β) (rest : List (String × β)) :
    DictWF (p :: rest) ↔ p.1 ∉ dkeys rest ∧ DictWF rest := by
  simp [DictWF, dkeys_cons, List.nodup_cons]

theorem dlookup_dupdate {β : Type} (e : List (String × β)) (hwf : DictWF e) :
    ∀ (d : List (String × β)) (k : String),
      dlookup (dupdate d e) k =
        match dlookup e k with
        | some v => some v
        | none => dlookup d k := by
  induction e with
  | nil => intro d k; simp [dupdate, dlookup]
  | cons p rest ih =>
    intro d k
    obtain ⟨k0, v0⟩ := p
    rw [dictWF_cons_iff] at hwf
    have step : dupdate d ((k0, v0) :: rest) = dupdate (dinsert d k0 v0) rest := rfl
    rw [step, ih hwf.2]
    by_cases h : k = k0
    · subst h
      have hnone : dlookup rest k = none := (dlookup_eq_none_iff rest k).mpr hwf.1
      simp [hnone, dlookup, dlookup_dinsert]
    · simp [dlookup, dlookup_dinsert, h, Ne.symm h]

theorem dkeys_dupdate_subset_left {β : Type} (e : List (String × β)) :
    ∀ d : List (String × β), dkeys d ⊆ dkeys (dupdate d e) := by
  induction e with
  | nil => intro d; exact fun x hx => hx
  | cons p rest ih =>
    intro d
    have step : dupdate d (p :: rest) = dupdate (dinsert d p.1 p.2) rest := rfl
    rw [step]
    exact fun x hx => ih (dinsert d p.1 p.2) (dkeys_dinsert_subset d p.1 p.2 hx)

theorem dkeys_dupdate_subset_right {β : Type} (e : List (String × β)) :
    ∀ d : List (String × β), dkeys e ⊆ dkeys (dupdate d e) := by
  induction e with
  | nil => intro d; simp [dkeys_nil]
  | cons p rest ih =>
    intro d x hx
    have step : dupdate d (p :: rest) = dupdate (dinsert d p.1 p.2) rest := rfl
    rw [step]
    rw [dkeys_cons] at hx
    rcases List.mem_cons.mp hx with h | h
    · rw [h]
      exact dkeys_dupdate_subset_left rest _ (mem_dkeys_dinsert d p.1 p.2)
    · exact ih _ h

theorem dkeys_dupdate_of_subset {β : Type} (e : List (String × β)) :
    ∀ d : List (String × β), (∀ k ∈ dkeys e, k ∈ dkeys d) →
      dkeys (dupdate d e) = dkeys d := by
  induction e with
  | nil => intro d _; rfl
  | cons p rest ih =>
    intro d h
    have hp : p.1 ∈ dkeys d := h p.1 (by simp [dkeys_cons])
    have step : dupdate d (p :: rest) = dupdate (dinsert d p.1 p.2) rest := rfl
    rw [step, ih (dinsert d p.1 p.2) ?sub, dkeys_dinsert_of_mem p.2 hp]
    case sub =>
      intro k hk
      rw [dkeys_dinsert_of_mem p.2 hp]
      exact h k (by simp [dkeys_cons, hk])

theorem dictWF_dupdate {β : Type} (e : List (String × β)) :
    ∀ d : List (String × β), DictWF d → DictWF (dupdate d e) := by
  induction e with
  | nil => intro d h; exact h
  | cons p rest ih =>
    intro d h
    exact ih (dinsert d p.1 p.2) (dictWF_dinsert p.1 p.2 h)

theorem dict_ext {β : Type} :
    ∀ {d1 d2 : List (String × β)}, DictWF d1 → dkeys d1 = dkeys d2 →
      (∀ k, dlookup d1 k = dlookup d2 k) → d1 = d2 := by
  intro d1
  induction d1 with
  | nil =>
    intro d2 _ hk _
    cases d2 with
    | nil => rfl
    | cons q rest2 => simp [dkeys_nil, dkeys_cons] at hk
  | cons p rest ih =>
    intro d2 hwf hk hl
    obtain ⟨k0, v0⟩ := p
    cases d2 with
    | nil => simp [dkeys_nil, dkeys_cons] at hk
    | cons q rest2 =>
      obtain ⟨k0', v0'⟩ := q
      rw [dkeys_cons, dkeys_cons] at hk
      obtain ⟨h1, hrest⟩ : k0 = k0' ∧ dkeys rest = dkeys rest2 := by
        simpa using hk
      subst h1
      rw [dictWF_cons_iff] at hwf
      have hv : v0 = v0' := by
        have := hl k0
        simp [dlookup] at this
        exact this
      subst hv
      have htails : rest = rest2 := by
        refine ih hwf.2 hrest ?_
        intro k
        by_cases h : k = k0
        · rw [h]
          have h1 : dlookup rest k0 = none := (dlookup_eq_none_iff rest k0).mpr hwf.1
          have h2 : dlookup rest2 k0 = none := by
            rw [dlookup_eq_none_iff, ← hrest]
            exact hwf.1
          rw [h1, h2]
        · have := hl k
          simpa [dlookup, Ne.symm h] using this
      rw [htails]

theorem mem_dinsert {β : Type} {d : List (String × β)} {k : String} {v : β}
    {p : String × β} (h : p ∈ dinsert d k v) : p ∈ d ∨ p = (k, v) := by
  induction d with
  | nil =>
    simp [dinsert] at h
    exact Or.inr h
  | cons q rest ih =>
    obtain ⟨k0, v0⟩ := q
    by_cases h0 : k0 = k
    · rw [show dinsert ((k0, v0) :: rest) k v = (k, v) :: rest from by simp [dinsert, h0]] at h
      rcases List.mem_cons.mp h with h | h
      · exact Or.inr h
      · exact Or.inl (List.mem_cons_of_mem _ h)
    · rw [show dinsert ((k0, v0) :: rest) k v = (k0, v0) :: dinsert rest k v from by
        simp [dinsert, h0]] at h
      rcases List.mem_cons.mp h with h | h
      · exact Or.inl (by simp [h])
      · rcases ih h with h' | h'
        · exact Or.inl (List.mem_cons_of_mem _ h')
        · exact Or.inr h'

/-! ### How `merge_records` rewrites the store, one record at a time -/

theorem mergeOne_skip (rk : Option String) (s : Store) (r : Record)
    (h : recFname rk r = none) : mergeOne rk s r = s := by
  unfold mergeOne
  unfold recFname at h
  cases hf : dlookup (applyRename rk r) "filename" with
  | none => simp [hf]
  | some f =>
    rw [hf] at h
    simp only [] at h
    by_cases he : f = ""
    · simp [hf, he]
    · simp [he] at h

theorem mergeOne_eq (rk : Option String) (s : Store) (r : Record) (f : String)
    (h : recFname rk r = some f) :
    mergeOne rk s r =
      dinsert s f (dupdate ((dlookup s f).getD (defaultRecord f)) (applyRename rk r)) := by
  unfold recFname at h
  cases hf : dlookup (applyRename rk r) "filename" with
  | none => rw [hf] at h; simp at h
  | some g =>
    rw [hf] at h
    by_cases he : g = ""
    · simp [he] at h
    · simp [he] at h
      subst h
      cases hc : dlookup s g with
      | none => simp [mergeOne, hf, he, hc]
      | some cur => simp [mergeOne, hf, he, hc]

theorem batchFor_cons_skip (rk : Option String) (r : Record) (rest : List Record)
    (f : String) (h : recFname rk r ≠ some f) :
    batchFor rk (r :: rest) f = batchFor rk rest f := by
  simp [batchFor, List.filter_cons, h]

theorem batchFor_cons_hit (rk : Option String) (r : Record) (rest : List Record)
    (f : String) (h : recFname rk r = some f) :
    batchFor rk (r :: rest) f = applyRename rk r :: batchFor rk rest f := by
  simp [batchFor, List.filter_cons, h]

theorem merge_records_cons (rk : Option String) (s : Store) (r : Record)
    (rest : List Record) :
    merge_records s (r :: rest) rk = merge_records (mergeOne rk s r) rest rk := rfl

/-- Pointwise characterization of `merge_records`: the record stored under
`f` is the sub-batch for `f` folded (by dict update) onto the previously
stored record, or onto the freshly seeded record if `f` was new. -/
theorem merge_lookup (rk : Option String) (new : List Record) :
    ∀ (s : Store) (f : String),
      dlookup (merge_records s new rk) f =
        if batchFor rk new f = [] then dlookup s f
        else some ((batchFor rk new f).foldl dupdate
          ((dlookup s f).getD (defaultRecord f))) := by
  induction new with
  | nil => intro s f; simp [merge_records, batchFor]
  | cons r rest ih =>
    intro s f
    rw [merge_records_cons]
    cases hr : recFname rk r with
    | none =>
      rw [mergeOne_skip rk s r hr,
        batchFor_cons_skip rk r rest f (by simp [hr]), ih]
    | some g =>
      by_cases hg : g = f
      · subst hg
        rw [mergeOne_eq rk s r g hr]
        set base := (dlookup s g).getD (defaultRecord g) with hbase
        set r' := applyRename rk r with hr'
        have hlook : dlookup (dinsert s g (dupdate base r')) g = some (dupdate base r') := by
          simp [dlookup_dinsert]
        rw [batchFor_cons_hit rk r rest g hr, ih, hlook]
        cases hbs : batchFor rk rest g with
        | nil => simp [hbs]
        | cons b bs => simp [hbs]
      · rw [mergeOne_eq rk s r g hr,
          batchFor_cons_skip rk r rest f (by simp [hr, hg]), ih]
        have hlook : dlookup (dinsert s g
            (dupdate ((dlookup s g).getD (defaultRecord g)) (applyRename rk r))) f
            = dlookup s f := by
          simp [dlookup_dinsert, Ne.symm hg, hg]
        rw [hlook]

/-! ### Well-formedness and key-set facts -/

theorem derase_sublist {β : Type} (d : List (String × β)) (k : String) :
    List.Sublist (derase d k) d := by
  induction d with
  | nil => simp [derase]
  | cons p rest ih =>
    obtain ⟨k0, v0⟩ := p
    by_cases h : k0 = k
    · simp only [derase, h, if_pos rfl]
      exact ih.cons _
    · simp only [derase, if_neg h]
      exact ih.cons₂ _

theorem dictWF_derase {β : Type} {d : List (String × β)} (k : String)
    (h : DictWF d) : DictWF (derase d k) :=
  List.Nodup.sublist ((derase_sublist d k).map Prod.fst) h

theorem applyRename_wf {rk : Option String} {r : Record} (h : DictWF r) :
    DictWF (applyRename rk r) := by
  unfold applyRename
  cases rk with
  | none => exact h
  | some key =>
    by_cases hk : key = ""
    · simp [hk]; exact h
    · simp only [if_neg hk]
      cases hv : dlookup r key with
      | none => exact h
      | some v => exact dictWF_dinsert _ _ (dictWF_derase key h)

theorem defaultRecord_wf (f : String) : DictWF (defaultRecord f) := by
  show List.Nodup (dkeys (defaultRecord f))
  rw [show dkeys (defaultRecord f) =
    ["filename", "person_name", "certificate_url", "ocr_text", "death_date",
     "death_location", "cause_of_death", "cholera_death"] from rfl]
  decide

theorem storeWF_mergeOne {rk : Option String} {s : Store} {r : Record}
    (hs : StoreWF s) : StoreWF (mergeOne rk s r) := by
  cases hf : recFname rk r with
  | none => rw [mergeOne_skip rk s r hf]; exact hs
  | some f =>
    rw [mergeOne_eq rk s r f hf]
    constructor
    · exact dictWF_dinsert _ _ hs.1
    · intro p hp
      rcases mem_dinsert hp with h | h
      · exact hs.2 p h
      · rw [h]
        refine dictWF_dupdate _ _ ?_
        cases hc : dlookup s f with
        | none => simp [hc]; exact defaultRecord_wf f
        | some cur => simp [hc]; exact hs.2 (f, cur) (dlookup_mem hc)

theorem storeWF_merge_records {rk : Option String} {new : List Record} :
    ∀ {s : Store}, StoreWF s → (∀ r ∈ new, DictWF r) →
      StoreWF (merge_records s new rk) := by
  induction new with
  | nil => intro s hs _; exact hs
  | cons r rest ih =>
    intro s hs hnew
    rw [merge_records_cons]
    exact ih (storeWF_mergeOne hs)
      (fun q hq => hnew q (List.mem_cons_of_mem _ hq))

theorem mergeOne_keys_mono {rk : Option String} (s : Store) (r : Record)
    {k : String} (h : k ∈ dkeys s) : k ∈ dkeys (mergeOne rk s r) := by
  cases hf : recFname rk r with
  | none => rw [mergeOne_skip rk s r hf]; exact h
  | some f => rw [mergeOne_eq rk s r f hf]; exact dkeys_dinsert_subset _ _ _ h

theorem merge_keys_mono {rk : Option String} {new : List Record} :
    ∀ {s : Store} {k : String}, k ∈ dkeys s → k ∈ dkeys (merge_records s new rk) := by
  induction new with
  | nil => intro s k h; exact h
  | cons r rest ih =>
    intro s k h
    rw [merge_records_cons]
    exact ih (mergeOne_keys_mono s r h)

theorem merge_mem_keys {rk : Option String} {new : List Record} :
    ∀ {s : Store} {r : Record} {f : String}, r ∈ new → recFname rk r = some f →
      f ∈ dkeys (merge_records s new rk) := by
  induction new with
  | nil => intro s r f h _; cases h
  | cons r0 rest ih =>
    intro s r f hmem hf
    rw [merge_records_cons]
    rcases List.mem_cons.mp hmem with h | h
    · subst h
      refine merge_keys_mono ?_
      rw [mergeOne_eq rk s r f hf]
      exact mem_dkeys_dinsert _ _ _
    · exact ih h hf

theorem merge_keys_of_covered {rk : Option String} {new : List Record} :
    ∀ {s : Store}, (∀ r ∈ new, ∀ f, recFname rk r = some f → f ∈ dkeys s) →
      dkeys (merge_records s new rk) = dkeys s := by
  induction new with
  | nil => intro s _; rfl
  | cons r rest ih =>
    intro s hcov
    rw [merge_records_cons]
    cases hf : recFname rk r with
    | none =>
      rw [mergeOne_skip rk s r hf]
      exact ih (fun q hq => hcov q (List.mem_cons_of_mem _ hq))
    | some f =>
      have hfs : f ∈ dkeys s := hcov r (by simp) f hf
      have hkeys : dkeys (mergeOne rk s r) = dkeys s := by
        rw [mergeOne_eq rk s r f hf]
        exact dkeys_dinsert_of_mem _ hfs
      rw [ih ?_, hkeys]
      intro q hq f' hf'
      rw [hkeys]
      exact hcov q (List.mem_cons_of_mem _ hq) f' hf'

/-! ### Folding a sub-batch onto a record -/

theorem chainLookup_cons (r : Record) (rest : List Record) (k : String) :
    chainLookup (r :: rest) k =
      match chainLookup rest k with
      | some v => some v
      | none => dlookup r k := rfl

theorem lookup_foldl_dupdate {bs : List Record} (hbs : ∀ r ∈ bs, DictWF r) :
    ∀ (X : Record) (k : String),
      dlookup (bs.foldl dupdate X) k =
        match chainLookup bs k with
        | some v => some v
        | none => dlookup X k := by
  induction bs with
  | nil => intro X k; simp [chainLookup]
  | cons r rest ih =>
    intro X k
    have step : (r :: rest).foldl dupdate X = rest.foldl dupdate (dupdate X r) := rfl
    rw [step, ih (fun q hq => hbs q (List.mem_cons_of_mem _ hq)) (dupdate X r) k,
      chainLookup_cons]
    cases chainLookup rest k with
    | some v => rfl
    | none =>
      rw [dlookup_dupdate r (hbs r (by simp)) X k]
      cases dlookup r k <;> rfl

theorem foldl_dupdate_keys_subset_start (bs : List Record) :
    ∀ X : Record, dkeys X ⊆ dkeys (bs.foldl dupdate X) := by
  induction bs with
  | nil => intro X; exact fun x hx => hx
  | cons r rest ih =>
    intro X x hx
    exact ih (dupdate X r) (dkeys_dupdate_subset_left r X hx)

theorem foldl_dupdate_keys_mem {bs : List Record} {r : Record} (h : r ∈ bs) :
    ∀ X : Record, dkeys r ⊆ dkeys (bs.foldl dupdate X) := by
  induction bs with
  | nil => cases h
  | cons b rest ih =>
    intro X x hx
    rcases List.mem_cons.mp h with h0 | h0
    · subst h0
      exact foldl_dupdate_keys_subset_start rest (dupdate X r)
        (dkeys_dupdate_subset_right r X hx)
    · exact ih h0 (dupdate X b) hx

theorem foldl_dupdate_keys_of_covered (bs : List Record) :
    ∀ X : Record, (∀ r ∈ bs, ∀ k ∈ dkeys r, k ∈ dkeys X) →
      dkeys (bs.foldl dupdate X) = dkeys X := by
  induction bs with
  | nil => intro X _; rfl
  | cons r rest ih =>
    intro X hcov
    have hXr : dkeys (dupdate X r) = dkeys X :=
      dkeys_dupdate_of_subset r X (hcov r (by simp))
    have hrest : dkeys (rest.foldl dupdate (dupdate X r)) = dkeys (dupdate X r) := by
      refine ih (dupdate X r) ?_
      intro q hq k hk
      rw [hXr]
      exact hcov q (List.mem_cons_of_mem _ hq) k hk
    calc dkeys ((r :: rest).foldl dupdate X)
        = dkeys (rest.foldl dupdate (dupdate X r)) := rfl
      _ = dkeys (dupdate X r) := hrest
      _ = dkeys X := hXr

theorem foldl_dupdate_wf (bs : List Record) :
    ∀ X : Record, DictWF X → DictWF (bs.foldl dupdate X) := by
  induction bs with
  | nil => intro X h; exact h
  | cons r rest ih =>
    intro X h
    exact ih (dupdate X r) (dictWF_dupdate r X h)

/-- Replaying the same sub-batch onto its own result changes nothing:
within one replay every key ends at the value of the last batch member
that supplies it, exactly as after the first pass. -/
theorem foldl_dupdate_replay {bs : List Record} (hbs : ∀ r ∈ bs, DictWF r)
    {base : Record} (hbase : DictWF base) :
    bs.foldl dupdate (bs.foldl dupdate base) = bs.foldl dupdate base := by
  refine dict_ext (foldl_dupdate_wf bs _ (foldl_dupdate_wf bs base hbase)) ?_ ?_
  · refine foldl_dupdate_keys_of_covered bs _ ?_
    intro r hr k hk
    exact foldl_dupdate_keys_mem hr base hk
  · intro k
    rw [lookup_foldl_dupdate hbs _ k, lookup_foldl_dupdate hbs base k]
    cases chainLookup bs k <;> rfl

theorem batchFor_wf {rk : Option String} {new : List Record} {f : String}
    (hnew : ∀ r ∈ new, DictWF r) :
    ∀ b ∈ batchFor rk new f, DictWF b := by
  intro b hb
  rcases List.mem_map.mp hb with ⟨r, hr, hb⟩
  rw [← hb]
  exact applyRename_wf (hnew r (List.mem_filter.mp hr).1)

theorem base_wf {s : Store} (hs : StoreWF s) (f : String) :
    DictWF ((dlookup s f).getD (defaultRecord f)) := by
  cases hc : dlookup s f with
  | none => simp [hc]; exact defaultRecord_wf f
  | some cur => simp [hc]; exact hs.2 (f, cur) (dlookup_mem hc)

/-- C1. Merge idempotence: for every (well-formed) store and batch of
partial records, applying `merge_records` with the same batch twice, under
the same optional source-key rename, yields the same store as applying it
once. -/
theorem merge_records_idempotent (s : Store) (new : List Record)
    (rk : Option String) (hs : StoreWF s) (hnew : ∀ r ∈ new, DictWF r) :
    merge_records (merge_records s new rk) new rk = merge_records s new rk := by
  have hs1 : StoreWF (merge_records s new rk) := storeWF_merge_records hs hnew
  refine dict_ext (storeWF_merge_records hs1 hnew).1 ?_ ?_
  · refine merge_keys_of_covered ?_
    intro r hr f hf
    exact merge_mem_keys hr hf
  · intro f
    rw [merge_lookup rk new (merge_records s new rk) f]
    by_cases hb : batchFor rk new f = []
    · rw [if_pos hb]
    · rw [if_neg hb, merge_lookup rk new s f]
      simp only [if_neg hb, Option.getD_some]
      rw [foldl_dupdate_replay (batchFor_wf hnew) (base_wf hs f)]

/-- Witness for C1 at a concrete store and batch. -/
theorem merge_records_idempotent_witness :
    (StoreWF [("a", [("filename", "a"), ("person_name", "Ada")])]
      ∧ ∀ r ∈ [[("filename", "a"), ("cause_of_death", "cholera")],
               [("filename", "b"), ("person_name", "Bob")]], DictWF r)
    ∧ merge_records
        (merge_records [("a", [("filename", "a"), ("person_name", "Ada")])]
          [[("filename", "a"), ("cause_of_death", "cholera")],
           [("filename", "b"), ("person_name", "Bob")]] none)
        [[("filename", "a"), ("cause_of_death", "cholera")],
         [("filename", "b"), ("person_name", "Bob")]] none
      = merge_records [("a", [("filename", "a"), ("person_name", "Ada")])]
          [[("filename", "a"), ("cause_of_death", "cholera")],
           [("filename", "b"), ("person_name", "Bob")]] none :=
  ⟨⟨by decide, by decide⟩,
    merge_records_idempotent _ _ _ (by decide) (by decide)⟩

/-! ### Schema completeness -/

theorem dkeys_defaultRecord (f : String) : dkeys (defaultRecord f) = canonicalKeys := rfl

theorem hasSchema_mergeOne {rk : Option String} {s : Store} {r : Record}
    (hs : HasSchema s) : HasSchema (mergeOne rk s r) := by
  cases hf : recFname rk r with
  | none => rw [mergeOne_skip rk s r hf]; exact hs
  | some f =>
    rw [mergeOne_eq rk s r f hf]
    intro p hp k hk
    rcases mem_dinsert hp with h | h
    · exact hs p h k hk
    · rw [h]
      rw [dlookup_isSome_iff]
      refine dkeys_dupdate_subset_left _ _ ?_
      cases hc : dlookup s f with
      | none =>
        simp only [hc, Option.getD_none, dkeys_defaultRecord]
        exact hk
      | some cur =>
        simp only [hc, Option.getD_some]
        rw [← dlookup_isSome_iff]
        exact hs (f, cur) (dlookup_mem hc) k hk

theorem hasSchema_merge_records {rk : Option String} {new : List Record} :
    ∀ {s : Store}, HasSchema s → HasSchema (merge_records s new rk) := by
  induction new with
  | nil => intro s hs; exact hs
  | cons r rest ih =>
    intro s hs
    rw [merge_records_cons]
    exact ih (hasSchema_mergeOne hs)

/-- C2. Schema completeness invariant: starting from the empty store, after
any sequence of `merge_records` calls (each with its own batch and optional
rename key) every stored record has all seven canonical fields — and the id
key — present as keys, each possibly the empty string, never missing. -/
theorem schema_complete_after_any_merges
    (batches : List (List Record × Option String)) :
    HasSchema (applyBatches [] batches) := by
  have hgen : ∀ (bs : List (List Record × Option String)) (s : Store),
      HasSchema s → HasSchema (applyBatches s bs) := by
    intro bs
    induction bs with
    | nil => intro s hs; exact hs
    | cons b rest ih =>
      intro s hs
      obtain ⟨batch, rk⟩ := b
      exact ih _ (hasSchema_merge_records hs)
  refine hgen batches [] ?_
  intro p hp
  cases hp

/-! ### Field-level precedence -/

theorem recFname_lookup {rk : Option String} {r : Record} {f : String}
    (h : recFname rk r = some f) :
    dlookup (applyRename rk r) "filename" = some f ∧ f ≠ "" := by
  unfold recFname at h
  cases hf : dlookup (applyRename rk r) "filename" with
  | none => rw [hf] at h; simp at h
  | some g =>
    rw [hf] at h
    by_cases he : g = ""
    · simp [he] at h
    · simp [he] at h
      subst h
      exact ⟨rfl, he⟩

theorem merge_records_singleton (rk : Option String) (s : Store) (r : Record) :
    merge_records s [r] rk = mergeOne rk s r := rfl

/-- C3. Merge precedence (last writer wins per field): when a partial record
for an existing id is merged, every field present in the (renamed) partial
replaces the stored value — even a non-empty one — and every field absent
from the partial is left unchanged. -/
theorem merge_field_precedence (s : Store) (r : Record) (rk : Option String)
    (f : String) (cur : Record) (hcur : dlookup s f = some cur)
    (hwf : DictWF (applyRename rk r)) (hf : recFname rk r = some f) :
    dlookup (merge_records s [r] rk) f = some (dupdate cur (applyRename rk r))
    ∧ (∀ k v, dlookup (applyRename rk r) k = some v →
        dlookup (dupdate cur (applyRename rk r)) k = some v)
    ∧ (∀ k, dlookup (applyRename rk r) k = none →
        dlookup (dupdate cur (applyRename rk r)) k = dlookup cur k) := by
  refine ⟨?_, ?_, ?_⟩
  · rw [merge_records_singleton, mergeOne_eq rk s r f hf, hcur]
    simp [dlookup_dinsert]
  · intro k v hk
    rw [dlookup_dupdate _ hwf cur k, hk]
  · intro k hk
    rw [dlookup_dupdate _ hwf cur k, hk]

/-- Witness for C3: the store holds `x = "1"` for id `a`; the partial
supplies `x = "2"` (which wins) and omits `person_name` (left alone). -/
theorem merge_field_precedence_witness :
    (dlookup [("a", [("filename", "a"), ("x", "1")])] "a"
        = some [("filename", "a"), ("x", "1")]
      ∧ DictWF (applyRename none [("filename", "a"), ("x", "2")])
      ∧ recFname none [("filename", "a"), ("x", "2")] = some "a")
    ∧ (dlookup (merge_records [("a", [("filename", "a"), ("x", "1")])]
          [[("filename", "a"), ("x", "2")]] none) "a"
        = some (dupdate [("filename", "a"), ("x", "1")]
            (applyRename none [("filename", "a"), ("x", "2")]))
      ∧ (∀ k v, dlookup (applyRename none [("filename", "a"), ("x", "2")]) k = some v →
          dlookup (dupdate [("filename", "a"), ("x", "1")]
            (applyRename none [("filename", "a"), ("x", "2")])) k = some v)
      ∧ (∀ k, dlookup (applyRename none [("filename", "a"), ("x", "2")]) k = none →
          dlookup (dupdate [("filename", "a"), ("x", "1")]
            (applyRename none [("filename", "a"), ("x", "2")])) k
            = dlookup [("filename", "a"), ("x", "1")] k)) :=
  ⟨⟨by decide, by decide, by decide⟩,
    merge_field_precedence _ _ none "a" _ (by decide) (by decide) (by decide)⟩

/-- C4. Merge commutativity on disjoint fields: two partial records for the
same id whose non-id fields are disjoint produce the same canonical record
(as a mapping) in either merge order. -/
theorem merge_disjoint_fields_commute (s : Store) (r1 r2 : Record)
    (rk : Option String) (f : String)
    (h1 : recFname rk r1 = some f) (h2 : recFname rk r2 = some f)
    (hw1 : DictWF (applyRename rk r1)) (hw2 : DictWF (applyRename rk r2))
    (hdisj : ∀ k ∈ dkeys (applyRename rk r1), k ≠ "filename" →
      k ∉ dkeys (applyRename rk r2)) :
    ∃ a b, dlookup (merge_records s [r1, r2] rk) f = some a
      ∧ dlookup (merge_records s [r2, r1] rk) f = some b
      ∧ ∀ k, dlookup a k = dlookup b k := by
  set base := (dlookup s f).getD (defaultRecord f) with hbase
  set q1 := applyRename rk r1 with hq1
  set q2 := applyRename rk r2 with hq2
  have e12 : dlookup (merge_records s [r1, r2] rk) f = some (dupdate (dupdate base q1) q2) := by
    rw [show merge_records s [r1, r2] rk = mergeOne rk (mergeOne rk s r1) r2 from rfl,
      mergeOne_eq rk s r1 f h1, mergeOne_eq rk _ r2 f h2]
    simp [dlookup_dinsert]
  have e21 : dlookup (merge_records s [r2, r1] rk) f = some (dupdate (dupdate base q2) q1) := by
    rw [show merge_records s [r2, r1] rk = mergeOne rk (mergeOne rk s r2) r1 from rfl,
      mergeOne_eq rk s r2 f h2, mergeOne_eq rk _ r1 f h1]
    simp [dlookup_dinsert]
  refine ⟨_, _, e12, e21, ?_⟩
  intro k
  rw [dlookup_dupdate q2 hw2 (dupdate base q1) k,
    dlookup_dupdate q1 hw1 base k,
    dlookup_dupdate q1 hw1 (dupdate base q2) k,
    dlookup_dupdate q2 hw2 base k]
  by_cases hk : k = "filename"
  · subst hk
    rw [(recFname_lookup h1).1, (recFname_lookup h2).1]
  · cases hv1 : dlookup q1 k with
    | some v =>
      have : k ∉ dkeys q2 :=
        hdisj k ((dlookup_isSome_iff q1 k).mp (by simp [hv1])) hk
      rw [(dlookup_eq_none_iff q2 k).mpr this]
    | none =>
      cases dlookup q2 k <;> rfl

/-- Witness for C4: the spec's example — `{id: a, x: 1}` then `{id: a, y: 2}`
against the reverse order. -/
theorem merge_disjoint_fields_commute_witness :
    (recFname none [("filename", "a"), ("x", "1")] = some "a"
      ∧ recFname none [("filename", "a"), ("y", "2")] = some "a"
      ∧ DictWF (applyRename none [("filename", "a"), ("x", "1")])
      ∧ DictWF (applyRename none [("filename", "a"), ("y", "2")])
      ∧ ∀ k ∈ dkeys (applyRename none [("filename", "a"), ("x", "1")]),
          k ≠ "filename" → k ∉ dkeys (applyRename none [("filename", "a"), ("y", "2")]))
    ∧ ∃ a b,
        dlookup (merge_records []
          [[("filename", "a"), ("x", "1")], [("filename", "a"), ("y", "2")]] none) "a" = some a
        ∧ dlookup (merge_records []
          [[("filename", "a"), ("y", "2")], [("filename", "a"), ("x", "1")]] none) "a" = some b
        ∧ ∀ k, dlookup a k = dlookup b k :=
  ⟨⟨by decide, by decide, by decide, by decide, by decide⟩,
    merge_disjoint_fields_commute [] _ _ none "a"
      (by decide) (by decide) (by decide) (by decide) (by decide)⟩

/-! ### The canonical store never loses a record -/

theorem idConsistent_toStore (data : List Record) : IdConsistent (toStore data) := by
  have hgen : ∀ (l : List Record) (d : Store), IdConsistent d →
      IdConsistent (l.foldl (fun d e =>
        match dlookup e "filename" with
        | none => d
        | some f => if f = "" then d else dinsert d f e) d) := by
    intro l
    induction l with
    | nil => intro d hd; exact hd
    | cons e rest ih =>
      intro d hd
      refine ih _ ?_
      cases hf : dlookup e "filename" with
      | none => simpa [hf] using hd
      | some f =>
        by_cases he : f = ""
        · simpa [hf, he] using hd
        · simp only [hf, if_neg he]
          intro f' rec hrec
          rw [dlookup_dinsert] at hrec
          by_cases hff : f' = f
          · subst hff
            rw [if_pos rfl] at hrec
            obtain rfl : e = rec := by simpa using hrec
            exact hf
          · rw [if_neg hff] at hrec
            exact hd f' rec hrec
  exact hgen data [] (fun f rec h => by simp [dlookup] at h)

theorem idConsistent_mergeOne {rk : Option String} {s : Store} {r : Record}
    (hs : IdConsistent s) (hr : DictWF r) : IdConsistent (mergeOne rk s r) := by
  cases hf : recFname rk r with
  | none => rw [mergeOne_skip rk s r hf]; exact hs
  | some f =>
    rw [mergeOne_eq rk s r f hf]
    intro f' rec hrec
    rw [dlookup_dinsert] at hrec
    by_cases hff : f' = f
    · subst hff
      rw [if_pos rfl] at hrec
      obtain rfl : dupdate ((dlookup s f').getD (defaultRecord f')) (applyRename rk r) = rec := by
        simpa using hrec
      rw [dlookup_dupdate _ (applyRename_wf hr) _ _, (recFname_lookup hf).1]
    · rw [if_neg hff] at hrec
      exact hs f' rec hrec

theorem idConsistent_merge_records {rk : Option String} {new : List Record} :
    ∀ {s : Store}, IdConsistent s → (∀ r ∈ new, DictWF r) →
      IdConsistent (merge_records s new rk) := by
  induction new with
  | nil => intro s hs _; exact hs
  | cons r rest ih =>
    intro s hs hnew
    rw [merge_records_cons]
    exact ih (idConsistent_mergeOne hs (hnew r (by simp)))
      (fun q hq => hnew q (List.mem_cons_of_mem _ hq))

/-- C9. No deletion from the canonical store: across a full
`update_global_file` cycle (load, merge of any batch, save), every id
present in the loaded store is still present — keyed by the same id — in the
persisted record list. -/
theorem update_global_file_no_deletion (g src : List Record) (rk : Option String)
    (hsrc : ∀ r ∈ src, DictWF r) :
    ∀ f, (dlookup (toStore g) f).isSome →
      ∃ rec, rec ∈ update_global_file g src rk ∧ dlookup rec "filename" = some f := by
  intro f hf
  have hmem : f ∈ dkeys (merge_records (toStore g) src rk) :=
    merge_keys_mono ((dlookup_isSome_iff _ f).mp hf)
  obtain ⟨rec, hrec⟩ : ∃ rec, dlookup (merge_records (toStore g) src rk) f = some rec := by
    have := (dlookup_isSome_iff (merge_records (toStore g) src rk) f).mpr hmem
    cases hl : dlookup (merge_records (toStore g) src rk) f with
    | none => rw [hl] at this; cases this
    | some rec => exact ⟨rec, rfl⟩
  refine ⟨rec, ?_, ?_⟩
  · exact List.mem_map.mpr ⟨(f, rec), dlookup_mem hrec, rfl⟩
  · exact idConsistent_merge_records (idConsistent_toStore g) hsrc f rec hrec

/-- Witness for C9: the loaded store holds a record for id `a`; after merging
a batch about id `b`, some persisted record still carries id `a`. -/
theorem update_global_file_no_deletion_witness :
    (∀ r ∈ [[("filename", "b"), ("cholera_death", "yes")]], DictWF r)
    ∧ ∀ f, (dlookup (toStore [[("filename", "a"), ("person_name", "Ada")]]) f).isSome →
        ∃ rec, rec ∈ update_global_file [[("filename", "a"), ("person_name", "Ada")]]
            [[("filename", "b"), ("cholera_death", "yes")]] none
          ∧ dlookup rec "filename" = some f :=
  ⟨by decide,
    update_global_file_no_deletion _ _ none (by decide)⟩

/-- C10. Merge does not restrict fields to the canonical schema: every
key-value pair the (renamed) incoming partial carries — canonical or not —
is stored verbatim on the resulting record. -/
theorem merge_stores_all_fields (s : Store) (r : Record) (rk : Option String)
    (f : String) (hwf : DictWF (applyRename rk r)) (hf : recFname rk r = some f) :
    ∃ rec, dlookup (merge_records s [r] rk) f = some rec
      ∧ ∀ k v, dlookup (applyRename rk r) k = some v → dlookup rec k = some v := by
  refine ⟨dupdate ((dlookup s f).getD (defaultRecord f)) (applyRename rk r), ?_, ?_⟩
  · rw [merge_records_singleton, mergeOne_eq rk s r f hf]
    simp [dlookup_dinsert]
  · intro k v hk
    rw [dlookup_dupdate _ hwf _ k, hk]

/-- Witness for C10: a partial with the non-canonical key `weird_key` is
stored verbatim. -/
theorem merge_stores_all_fields_witness :
    (DictWF (applyRename none [("filename", "a"), ("weird_key", "w")])
      ∧ recFname none [("filename", "a"), ("weird_key", "w")] = some "a")
    ∧ ∃ rec, dlookup (merge_records []
          [[("filename", "a"), ("weird_key", "w")]] none) "a" = some rec
        ∧ ∀ k v, dlookup (applyRename none [("filename", "a"), ("weird_key", "w")]) k = some v →
            dlookup rec k = some v :=
  ⟨⟨by decide, by decide⟩,
    merge_stores_all_fields [] _ none "a" (by decide) (by decide)⟩

/-! ### Loading a missing or corrupt store -/

/-- C8. Load on missing or corrupt store: `load_json` yields the empty
collection — and hence the empty id-keyed mapping — both when the file does
not exist and when its content fails JSON parsing. -/
theorem load_json_missing_or_corrupt_empty :
    load_json FileRead.missing = [] ∧ load_json FileRead.corrupt = []
    ∧ toStore (load_json FileRead.missing) = ([] : Store)
    ∧ toStore (load_json FileRead.corrupt) = ([] : Store) :=
  ⟨rfl, rfl, rfl, rfl⟩

/-- C7. Fuzzy matching primitive: the keyword matches the text exactly when
it occurs as a contiguous substring, or some `\W+`-token of the text has a
sequence-similarity ratio of at least the fixed threshold `0.8` to the
keyword. -/
theorem fuzzy_in_text_iff (keyword text : String) :
    fuzzy_in_text keyword text 0.8 = true ↔
      (keyword.data <:+: text.data
        ∨ ∃ w ∈ splitW text.data, (0.8 : ℚ) ≤ seqRatio w keyword.data) := by
  unfold fuzzy_in_text
  by_cases h : keyword.data <:+: text.data
  · simp [h]
  · simp [h, List.any_eq_true]

/-- C6. Classifier negative precedence: whenever some negative keyword
fuzzy-matches the lower-cased cause string, `check_cholera_keywords`
returns the negative label — a positive keyword may match as well, the
negatives are evaluated first. -/
theorem classifier_negative_precedence (cause : String) (h0 : cause ≠ "")
    (h : ∃ neg ∈ negative_keywords, fuzzy_in_text neg (pyLower cause) 0.8 = true) :
    check_cholera_keywords cause = "no" := by
  unfold check_cholera_keywords
  rw [if_neg h0]
  have hany : negative_keywords.any (fun neg => fuzzy_in_text neg (pyLower cause) 0.8) = true := by
    rw [List.any_eq_true]
    exact h
  simp only [hany, if_true]

/-- Witness for C6: the spec's example "epilepsy with diarrhea" — the
negative keyword `epilepsy` matches, the positive keyword `diarrhea`
matches too, and the classification is negative. -/
theorem classifier_negative_precedence_witness :
    (("epilepsy with diarrhea" : String) ≠ ""
      ∧ ∃ neg ∈ negative_keywords,
          fuzzy_in_text neg (pyLower "epilepsy with diarrhea") 0.8 = true)
    ∧ (∃ pos ∈ positive_keywords,
        fuzzy_in_text pos (pyLower "epilepsy with diarrhea") 0.8 = true)
    ∧ check_cholera_keywords "epilepsy with diarrhea" = "no" :=
  ⟨⟨by decide, ⟨"epilepsy", by decide, by decide⟩⟩,
    ⟨"diarrhea", by decide, by decide⟩,
    classifier_negative_precedence _ (by decide)
      ⟨"epilepsy", by decide, by decide⟩⟩

theorem copyLoop_mem_mono (source : List String) :
    ∀ (records : List Record) (dest : List String) {f : String},
      f ∈ dest → f ∈ copyLoop source records dest := by
  intro records
  induction records with
  | nil => intro dest f hf; exact hf
  | cons r rest ih =>
    intro dest f hf
    unfold copyLoop
    by_cases hs : pdfOf r ∈ source
    · rw [if_pos hs]
      by_cases hd : pdfOf r ∈ dest
      · rw [if_pos hd]; exact ih dest hf
      · rw [if_neg hd]; exact ih _ (List.mem_append_left _ hf)
    · rw [if_neg hs]; exact ih dest hf

theorem copyLoop_mem_cases (source : List String) :
    ∀ (records : List Record) (dest : List String) {f : String},
      f ∈ copyLoop source records dest → f ∈ dest ∨ ∃ r ∈ records, f = pdfOf r := by
  intro records
  induction records with
  | nil => intro dest f hf; exact Or.inl hf
  | cons r rest ih =>
    intro dest f hf
    unfold copyLoop at hf
    by_cases hs : pdfOf r ∈ source
    · rw [if_pos hs] at hf
      by_cases hd : pdfOf r ∈ dest
      · rw [if_pos hd] at hf
        rcases ih dest hf with h | ⟨q, hq, hfq⟩
        · exact Or.inl h
        · exact Or.inr ⟨q, List.mem_cons_of_mem _ hq, hfq⟩
      · rw [if_neg hd] at hf
        rcases ih _ hf with h | ⟨q, hq, hfq⟩
        · rcases List.mem_append.mp h with h' | h'
          · exact Or.inl h'
          · exact Or.inr ⟨r, by simp, by simpa using h'⟩
        · exact Or.inr ⟨q, List.mem_cons_of_mem _ hq, hfq⟩
    · rw [if_neg hs] at hf
      rcases ih dest hf with h | ⟨q, hq, hfq⟩
      · exact Or.inl h
      · exact Or.inr ⟨q, List.mem_cons_of_mem _ hq, hfq⟩

theorem copyLoop_covers (source : List String) :
    ∀ (records : List Record) (dest : List String) {r : Record},
      r ∈ records → pdfOf r ∈ source → pdfOf r ∈ copyLoop source records dest := by
  intro records
  induction records with
  | nil => intro dest r hr; cases hr
  | cons r0 rest ih =>
    intro dest r hr hsrc
    unfold copyLoop
    rcases List.mem_cons.mp hr with h | h
    · subst h
      rw [if_pos hsrc]
      by_cases hd : pdfOf r ∈ dest
      · rw [if_pos hd]
        exact copyLoop_mem_mono source rest dest hd
      · rw [if_neg hd]
        exact copyLoop_mem_mono source rest _
          (List.mem_append_right _ (by simp))
    · by_cases hs0 : pdfOf r0 ∈ source
      · rw [if_pos hs0]
        by_cases hd : pdfOf r0 ∈ dest
        · rw [if_pos hd]; exact ih dest h hsrc
        · rw [if_neg hd]; exact ih _ h hsrc
      · rw [if_neg hs0]; exact ih dest h hsrc

theorem stripExt4_append_pdf (s : String) : stripExt4 (s ++ ".pdf") = s := by
  apply String.ext
  show ((s ++ ".pdf").data.take ((s ++ ".pdf").data.length - 4)) = s.data
  rw [String.data_append]
  rw [show (".pdf" : String).data = ['.', 'p', 'd', 'f'] from rfl]
  rw [List.length_append]
  simp

theorem isPdfName_append_pdf (s : String) : isPdfName (s ++ ".pdf") = true := by
  unfold isPdfName pyLower
  rw [List.isSuffixOf_iff_suffix, String.data_append, List.map_append,
    show (".pdf" : String).data.map Char.toLower = (".pdf" : String).data from rfl]
  exact List.suffix_append _ _

/-- Counterexample to C5 as stated: with an empty source directory the copy
of `a.pdf` is skipped (source PDF not found — reported, non-fatal), so the
destination's artifact-id set stays empty while the predicate-passing id
set is `{a}`. -/
theorem process_cholera_set_equality_cex :
    ¬ (∀ id, HasArtifactId (process_cholera_deaths cholCexStore [] []) id ↔
        id ∈ validNames cholCexStore) := by
  intro h
  have ha : "a" ∈ validNames cholCexStore := by decide
  obtain ⟨f, hf, -⟩ := (h "a").mpr ha
  rw [show process_cholera_deaths cholCexStore [] [] = [] from rfl] at hf
  cases hf

/-- C5 (amended). Reconciliation set-equality: provided every
predicate-passing record's source artifact exists in the source directory,
after `process_cholera_deaths` the destination's artifact-id set exactly
equals the predicate-passing id set of the store, for any starting
destination contents. -/
theorem process_cholera_set_equality (complete_data : List Record)
    (source dest : List String)
    (hsrc : ∀ r ∈ complete_data, isCholeraYes r = true → pdfOf r ∈ source) :
    ∀ id, HasArtifactId (process_cholera_deaths complete_data source dest) id ↔
      id ∈ validNames complete_data := by
  intro id
  simp only [process_cholera_deaths]
  constructor
  · rintro ⟨f, hf, hpdf, hbase⟩
    rcases copyLoop_mem_cases source _ _ hf with h | ⟨r, hr, hfr⟩
    · have hmem := List.mem_filter.mp h
      have hcond := hmem.2
      rw [hpdf] at hcond
      simp only [Bool.not_true, Bool.false_or, decide_eq_true_eq] at hcond
      rw [hbase] at hcond
      exact hcond
    · rw [hfr] at hbase
      rw [show pdfOf r = recordName r ++ ".pdf" from rfl, stripExt4_append_pdf] at hbase
      exact List.mem_map.mpr ⟨r, hr, hbase⟩
  · intro hid
    obtain ⟨r, hr, hname⟩ := List.mem_map.mp hid
    have hrmem := List.mem_filter.mp hr
    have hsrcr : pdfOf r ∈ source := hsrc r hrmem.1 hrmem.2
    refine ⟨pdfOf r, copyLoop_covers source _ _ hr hsrcr, isPdfName_append_pdf _, ?_⟩
    rw [show pdfOf r = recordName r ++ ".pdf" from rfl, stripExt4_append_pdf]
    exact hname

/-- Witness for the amended C5: id `a` passes, its artifact is in the source
directory, the starting destination holds a stale `b.pdf` (pruned) and a
non-PDF name (ignored); the final artifact-id set is exactly `{a}`. -/
theorem process_cholera_set_equality_witness :
    (∀ r ∈ [[("filename", "a"), ("cholera_death", "yes")],
            [("filename", "b"), ("cholera_death", "no")]],
        isCholeraYes r = true → pdfOf r ∈ ["a.pdf", "c.pdf"])
    ∧ ∀ id, HasArtifactId
        (process_cholera_deaths
          [[("filename", "a"), ("cholera_death", "yes")],
           [("filename", "b"), ("cholera_death", "no")]]
          ["a.pdf", "c.pdf"] ["b.pdf", "notes.txt"]) id ↔
        id ∈ validNames [[("filename", "a"), ("cholera_death", "yes")],
                         [("filename", "b"), ("cholera_death", "no")]] :=
  ⟨by decide, process_cholera_set_equality _ _ _ (by decide)⟩
